import Mathlib

/-!
Verification of the MagicMentor assessment pipeline and persistent memory
store: a shallow embedding of the marker-protocol parser
(`backend/agents/assessment_agent.py`), the per-user memory store
(`backend/memory/persistent_memory.py`), the learning-session skill append
(`backend/agents/learning_agent.py`) and the quiz UI handlers (`app.py`),
together with theorems about the spec's testable properties.

Text is embedded as `List Char`; Python string operations (`split`,
`strip`, `in`, `int(...)`) are modelled by executable functions below.
`json.loads` is modelled by a recursive-descent parser over the JSON
grammar restricted to the payload shapes this protocol produces
(null / booleans / integers / strings with the common escapes /
arrays / objects with last-wins duplicate keys; float literals and
surrogate-pair `\u` handling are out of scope).
-/

namespace MagicMentor

abbrev Chars := List Char

/-- Python `str` whitespace (ASCII subset, as used by `strip`/`lstrip`). -/
def isSpaceChar (c : Char) : Bool :=
  c = ' ' || c = '\t' || c = '\n' || c = '\x0d' || c = '\x0b' || c = '\x0c'

/-- Index of the first occurrence of `pat` in `hay` (Python `str.find` /
the occurrence structure behind `in` and `split`). -/
def findSub (hay pat : Chars) : Option Nat :=
  match hay with
  | [] => if pat.isEmpty then some 0 else none
  | h :: t =>
    if pat.isPrefixOf (h :: t) then some 0
    else (findSub t pat).map (· + 1)

/-- Python `pat in hay` substring test. -/
def containsSub (hay pat : Chars) : Bool :=
  (findSub hay pat).isSome

/-- Python `hay.split(pat)` (all occurrences, non-overlapping, left to
right), via structural fuel; `fuel ≥ 1` always suffices per step because
an occurrence consumes at least one character of a nonempty pattern. -/
def splitAllAux : Nat → Chars → Chars → List Chars
  | 0, hay, _ => [hay]
  | Nat.succ fuel, hay, pat =>
    match findSub hay pat with
    | none => [hay]
    | some i => hay.take i :: splitAllAux fuel (hay.drop (i + pat.length)) pat

def splitAll (pat hay : Chars) : List Chars :=
  splitAllAux (hay.length + 1) hay pat

/-- Python `hay.split(pat, 1)[0]`: the text before the first occurrence
of `pat` (all of `hay` when `pat` is absent). -/
def beforeFirst (pat hay : Chars) : Chars :=
  match findSub hay pat with
  | none => hay
  | some i => hay.take i

/-- Python `hay.split(pat, 1)[1]`: the text after the first occurrence of
`pat`; `none` models the `IndexError` when `pat` is absent. -/
def afterFirst? (pat hay : Chars) : Option Chars :=
  match findSub hay pat with
  | none => none
  | some i => some (hay.drop (i + pat.length))

def lstripC (s : Chars) : Chars := s.dropWhile isSpaceChar

def rstripC (s : Chars) : Chars := (s.reverse.dropWhile isSpaceChar).reverse

/-- Python `s.strip()`. -/
def stripC (s : Chars) : Chars := rstripC (lstripC s)

def digitVal (c : Char) : Nat := c.toNat - 48

/-- Digit run of Python `int(...)`: after the first digit, single
underscores are permitted between digits. -/
def digitsAux : Chars → Nat → Option Nat
  | [], acc => some acc
  | c :: t, acc =>
    if c.isDigit then digitsAux t (acc * 10 + digitVal c)
    else if c = '_' then
      match t with
      | c2 :: t2 => if c2.isDigit then digitsAux t2 (acc * 10 + digitVal c2) else none
      | [] => none
    else none

/-- Unsigned digit sequence: nonempty, starting with a digit. -/
def parseUDigits : Chars → Option Nat
  | [] => none
  | c :: t => if c.isDigit then digitsAux t (digitVal c) else none

/-- Python `int(s)` for base 10: surrounding whitespace, optional sign,
digits (with underscores between digits); `none` models `ValueError`. -/
def pyInt? (s : Chars) : Option Int :=
  match stripC s with
  | '+' :: rest => (parseUDigits rest).map Int.ofNat
  | '-' :: rest => (parseUDigits rest).map (fun n => -(Int.ofNat n))
  | rest => (parseUDigits rest).map Int.ofNat

/-- Model of `_strip_think` (assessment_agent.py): text after a closing
`</think>` when present; otherwise, when an unclosed `<think>` is
present, the text before it; otherwise the text unchanged. -/
def stripThink (text : Chars) : Chars :=
  if containsSub text "</think>".toList then
    stripC ((afterFirst? "</think>".toList text).getD [])
  else if containsSub text "<think>".toList then
    stripC (beforeFirst "<think>".toList text)
  else text

/-- JSON values as produced by `json.loads` (integers only; see header). -/
inductive Json where
  | jnull
  | jbool (b : Bool)
  | jnum (n : Int)
  | jstr (s : Chars)
  | jarr (xs : List Json)
  | jobj (kvs : List (Chars × Json))

/-- JSON inter-token whitespace. -/
def isJWs (c : Char) : Bool :=
  c = ' ' || c = '\t' || c = '\n' || c = '\x0d'

def skipJWs (s : Chars) : Chars := s.dropWhile isJWs

/-- Single-character JSON string escapes. -/
def escChar? (e : Char) : Option Char :=
  if e = '"' then some '"'
  else if e = '\\' then some '\\'
  else if e = '/' then some '/'
  else if e = 'b' then some '\x08'
  else if e = 'f' then some '\x0c'
  else if e = 'n' then some '\n'
  else if e = 'r' then some '\x0d'
  else if e = 't' then some '\t'
  else none

def hexVal? (c : Char) : Option Nat :=
  if c.isDigit then some (c.toNat - 48)
  else if 'a' ≤ c ∧ c ≤ 'f' then some (c.toNat - 87)
  else if 'A' ≤ c ∧ c ≤ 'F' then some (c.toNat - 55)
  else none

/-- JSON string literal body (after the opening quote): returns the
decoded content and the remainder after the closing quote. Raw control
characters are rejected, as in strict-mode `json.loads`. -/
def parseStrLit : Chars → Option (Chars × Chars)
  | [] => none
  | c :: t =>
    if c = '"' then some ([], t)
    else if c = '\\' then
      match t with
      | [] => none
      | e :: t2 =>
        match escChar? e with
        | some d => (parseStrLit t2).map (fun p => (d :: p.1, p.2))
        | none =>
          if e = 'u' then
            match t2 with
            | h1 :: h2 :: h3 :: h4 :: t3 =>
              match hexVal? h1, hexVal? h2, hexVal? h3, hexVal? h4 with
              | some a, some b, some c2, some d2 =>
                (parseStrLit t3).map
                  (fun p => (Char.ofNat (((a * 16 + b) * 16 + c2) * 16 + d2) :: p.1, p.2))
              | _, _, _, _ => none
            | _ => none
          else none
    else if c.toNat < 32 then none
    else (parseStrLit t).map (fun p => (c :: p.1, p.2))

/-- Maximal digit run with its value. -/
def takeJDigits : Chars → Nat → Nat × Chars
  | [], acc => (acc, [])
  | c :: t, acc =>
    if c.isDigit then takeJDigits t (acc * 10 + digitVal c) else (acc, c :: t)

/-- JSON integer literal: optional `-`, then `0` or a nonzero-led digit
run; a following `.`/`e`/`E` (a float) is out of the embedded grammar. -/
def parseJNumAbs : Chars → Option (Nat × Chars)
  | [] => none
  | c :: t =>
    if c = '0' then some (0, t)
    else if c.isDigit then some (takeJDigits t (digitVal c))
    else none

/-- Reject a trailing fraction/exponent (floats are unmodelled). -/
def floatGuard (n : Int) (rest : Chars) : Option (Int × Chars) :=
  match rest with
  | c :: _ => if c = '.' || c = 'e' || c = 'E' then none else some (n, rest)
  | [] => some (n, rest)

def parseJNum : Chars → Option (Int × Chars)
  | s =>
    match s with
    | '-' :: t =>
      match parseJNumAbs t with
      | some (n, rest) => floatGuard (-(Int.ofNat n)) rest
      | none => none
    | _ =>
      match parseJNumAbs s with
      | some (n, rest) => floatGuard (Int.ofNat n) rest
      | none => none

/-- Python dict insertion: first-insertion position, last value wins. -/
def assocUpsert (kvs : List (Chars × β)) (k : Chars) (v : β) : List (Chars × β) :=
  match kvs with
  | [] => [(k, v)]
  | (k0, v0) :: t => if k0 = k then (k0, v) :: t else (k0, v0) :: assocUpsert t k v

def buildDict (pairs : List (Chars × β)) : List (Chars × β) :=
  pairs.foldl (fun acc p => assocUpsert acc p.1 p.2) []

/-- Grammar position for the fuel-structural recursive descent:
a whole value, the items of an array, or the members of an object
(the latter two yield their collected contents as `jarr`/`jobj`). -/
inductive PMode where
  | val
  | arrItems
  | objItems

/-- Fuel-structural recursive-descent JSON reader; the three mutually
recursive grammar positions are folded into one function so concrete
runs reduce definitionally. `objItems` yields raw member pairs; the
enclosing `val` case applies `buildDict` (Python dict construction). -/
def parseCore : Nat → PMode → Chars → Option (Json × Chars)
  | 0, _, _ => none
  | Nat.succ fuel, PMode.val, s =>
    (match skipJWs s with
     | 'n' :: 'u' :: 'l' :: 'l' :: rest => some (Json.jnull, rest)
     | 't' :: 'r' :: 'u' :: 'e' :: rest => some (Json.jbool true, rest)
     | 'f' :: 'a' :: 'l' :: 's' :: 'e' :: rest => some (Json.jbool false, rest)
     | '"' :: rest => (parseStrLit rest).map (fun p => (Json.jstr p.1, p.2))
     | '[' :: rest =>
       (match skipJWs rest with
        | ']' :: r2 => some (Json.jarr [], r2)
        | r => parseCore fuel PMode.arrItems r)
     | '{' :: rest =>
       (match skipJWs rest with
        | '}' :: r2 => some (Json.jobj [], r2)
        | r =>
          match parseCore fuel PMode.objItems r with
          | some (Json.jobj kvs, r2) => some (Json.jobj (buildDict kvs), r2)
          | _ => none)
     | rest => (parseJNum rest).map (fun p => (Json.jnum p.1, p.2)))
  | Nat.succ fuel, PMode.arrItems, s =>
    (match parseCore fuel PMode.val s with
     | none => none
     | some (v, rest) =>
       match skipJWs rest with
       | ',' :: r2 =>
         (match parseCore fuel PMode.arrItems r2 with
          | some (Json.jarr xs, r3) => some (Json.jarr (v :: xs), r3)
          | _ => none)
       | ']' :: r2 => some (Json.jarr [v], r2)
       | _ => none)
  | Nat.succ fuel, PMode.objItems, s =>
    (match skipJWs s with
     | '"' :: r =>
       (match parseStrLit r with
        | none => none
        | some (k, r2) =>
          match skipJWs r2 with
          | ':' :: r3 =>
            (match parseCore fuel PMode.val r3 with
             | none => none
             | some (v, r4) =>
               match skipJWs r4 with
               | ',' :: r5 =>
                 (match parseCore fuel PMode.objItems r5 with
                  | some (Json.jobj kvs, r6) => some (Json.jobj ((k, v) :: kvs), r6)
                  | _ => none)
               | '}' :: r5 => some (Json.jobj [(k, v)], r5)
               | _ => none)
          | _ => none)
     | _ => none)

def parseVal (fuel : Nat) (s : Chars) : Option (Json × Chars) :=
  parseCore fuel PMode.val s

/-- Model of `json.loads` on a whole string: one value plus trailing whitespace. -/
def jsonParse (s : Chars) : Option Json :=
  match parseVal (s.length + 2) s with
  | some (v, rest) => if (skipJWs rest).isEmpty then some v else none
  | none => none

/-- The depth-counting loop of `_extract_bracketed_json`: index just past
the position where nesting depth first returns to zero on a closing
symbol, scanning from the start of `s`. -/
def scanDepthGo (openCh closeCh : Char) : Chars → Int → Nat → Option Nat
  | [], _, _ => none
  | c :: t, depth, i =>
    if c = openCh then scanDepthGo openCh closeCh t (depth + 1) (i + 1)
    else if c = closeCh then
      if depth - 1 = 0 then some (i + 1)
      else scanDepthGo openCh closeCh t (depth - 1) (i + 1)
    else scanDepthGo openCh closeCh t depth (i + 1)

def scanDepth (s : Chars) (openCh closeCh : Char) : Option Nat :=
  scanDepthGo openCh closeCh s 0 0

/-- Model of `_extract_bracketed_json` (assessment_agent.py). -/
def extractBracketedJson (text marker : Chars) : Option Json :=
  if containsSub text marker then
    match afterFirst? marker text with
    | none => none
    | some rest =>
      match lstripC rest with
      | [] => none
      | first :: tail =>
        if first = '{' || first = '[' then
          let closeCh := if first = '{' then '}' else ']'
          match scanDepth (first :: tail) first closeCh with
          | none => none
          | some endIdx => jsonParse ((first :: tail).take endIdx)
        else none
  else none

/-- The scalar-marker extraction block of `continue_assessment`:
`text.split(marker)[1].split("]")[0].strip().split("/")[0]` fed to
`int(...)`, with `IndexError`/`ValueError` collapsing to `none`. -/
def extractScalar (text marker : Chars) : Option Int :=
  if containsSub text marker then
    match (splitAll marker text).get? 1 with
    | none => none
    | some seg =>
      let beforeBr := (splitAll [']'] seg).headD seg
      let stripped := stripC beforeBr
      let beforeSlash := (splitAll ['/'] stripped).headD stripped
      pyInt? beforeSlash
  else none

structure Msg where
  role : Chars
  content : Chars

/-- Result envelope of `continue_assessment`. -/
structure ContinueResult where
  message : Chars
  history : List Msg
  skill : Chars
  complete : Bool
  score : Option Int
  questionScore : Option Int
  subtopicScores : List (Chars × Json)
  gaps : List Json

/-- Model of `continue_assessment` (assessment_agent.py) with the gateway's raw
reply passed in as `responseText` (the `chat(...)` call is the external
Text-Generation Gateway). -/
def continueAssessment (userInput : Chars) (history : List Msg) (skill : Chars)
    (responseText : Chars) : ContinueResult :=
  let clean := stripThink responseText
  let messages := (history ++ [⟨"user".toList, userInput⟩])
      ++ [⟨"assistant".toList, clean⟩]
  let complete := containsSub clean "[ASSESSMENT_COMPLETE]".toList
  let questionScore := extractScalar clean "[QUESTION_SCORE:".toList
  let score := extractScalar clean "[ASSESSMENT_SCORE:".toList
  let subtopicScores :=
    match extractBracketedJson clean "[SUBTOPIC_SCORES:".toList with
    | some (Json.jobj kvs) => kvs
    | _ => []
  let gaps :=
    match extractBracketedJson clean "[GAPS:".toList with
    | some (Json.jarr xs) => xs
    | _ => []
  ⟨clean, messages, skill, complete, score, questionScore, subtopicScores, gaps⟩

/-- Python ASCII `str.lower()` (adequate for the marker vocabulary). -/
def pyLower (s : Chars) : Chars := s.map Char.toLower

/-- Python `hay.replace(pat, rep)` for nonempty `pat`. -/
def replaceAll (pat rep hay : Chars) : Chars :=
  (splitAll pat hay).intersperse rep |>.flatten

/-- Association-list lookup (Python `dict.get`). -/
def assocLookup (kvs : List (Chars × β)) (k : Chars) : Option β :=
  (kvs.find? (fun p => p.1 = k)).map (·.2)

/-- The gap-reason map of `build_gap_entries`: for each string gap
description, the first declared subtopic whose lowercased name occurs in
the lowercased description (later descriptions overwrite earlier). -/
def gapReasonsOf (subNames : List Chars) (gaps : List Json) : List (Chars × Chars) :=
  gaps.foldl
    (fun acc g =>
      match g with
      | Json.jstr gs =>
        (match subNames.find? (fun sub => containsSub (pyLower gs) (pyLower sub)) with
         | some sub => assocUpsert acc sub gs
         | none => acc)
      | _ => acc)
    []

/-- One canonical skill-gap record (build_gap_entries output). -/
structure GapEntry where
  skill : Chars
  priority : Nat
  category : Chars
  reason : Chars
  buildsOn : Chars
  estimatedLearningTime : Chars
  jobMarketDemand : Chars
  resources : List Chars
  source : Chars
  assessedScore : Int

def gapCategory (skill : Chars) : Chars :=
  replaceAll " ".toList "_".toList (replaceAll " / ".toList "_".toList (pyLower skill))

/-- The entry-building loop of `build_gap_entries`, with the running
priority counter made explicit. -/
def mkGapEntries (skill : Chars) (reasons : List (Chars × Chars)) (overall : Int) :
    Nat → List (Chars × Int) → List GapEntry
  | _, [] => []
  | p, (sub, v) :: rest =>
    { skill := skill ++ " — ".toList ++ sub
      priority := p
      category := gapCategory skill
      reason := (assocLookup reasons sub).getD
        ("Scored ".toList ++ (toString v).toList ++ "/100 in ".toList ++ sub)
      buildsOn := "Existing ".toList ++ skill ++ " knowledge".toList
      estimatedLearningTime := "1-2 weeks".toList
      jobMarketDemand := if overall < 50 then "high".toList else "medium".toList
      resources := []
      source := "assessment".toList
      assessedScore := v } :: mkGapEntries skill reasons overall (p + 1) rest

/-- Python `sorted(items, key=lambda x: x[1])`: stable ascending sort on
the score (insertion sort from the right is stable for `≤`). -/
def sortedByScore (l : List (Chars × Int)) : List (Chars × Int) :=
  List.insertionSort (fun a b => a.2 ≤ b.2) l

/-- Model of `build_gap_entries` (assessment_agent.py). -/
def buildGapEntries (skill : Chars) (subtopicScores : List (Chars × Int))
    (gaps : List Json) (overall : Int) : List GapEntry :=
  let low := subtopicScores.filter (fun p => p.2 < 70)
  let reasons := gapReasonsOf (subtopicScores.map (·.1)) gaps
  mkGapEntries skill reasons overall 1 (sortedByScore low)

/-- One entry of a skill bucket: a Python dict with an optional `name`
and the fields the embedded operations read or write. -/
structure SkillDict where
  name : Option Chars
  level : Option Chars := none
  score : Option Int := none
  completedAt : Option Chars := none
deriving DecidableEq

/-- The four lifecycle buckets of `_data["skills"]`. -/
structure Skills where
  current : List SkillDict
  learning : List SkillDict
  completed : List SkillDict
  targets : List SkillDict
deriving DecidableEq

structure NoteEntry where
  date : Chars
  note : Chars
deriving DecidableEq

structure SummaryEntry where
  date : Chars
  stype : Chars
  summary : Chars
  keyInsights : List Chars
deriving DecidableEq

/-- One assessment-history record (see `saveAssessment`). -/
structure AssessmentRecord where
  skill : Chars
  overallScore : Int
  subtopicScores : List (Chars × Int)
  gapEntries : List GapEntry
  assessedAt : Chars

/-- The durable per-user record of `UserMemory` (the fields the claims
touch); every embedded operation returns the state it flushes, matching
the read-modify-write-flush discipline (`self.save()` on every mutation). -/
structure Store where
  skills : Skills
  mentorNotes : List NoteEntry
  sessionSummaries : List SummaryEntry
  learningHistory : List AssessmentRecord

/-- Model of `_default_structure` restricted to the modelled fields. -/
def emptyStore : Store :=
  { skills := { current := [], learning := [], completed := [], targets := [] }
    mentorNotes := []
    sessionSummaries := []
    learningHistory := [] }

/-- Python `l[-n:]`. -/
def takeLast (n : Nat) (l : List α) : List α := l.drop (l.length - n)

/-- Model of `UserMemory.mark_skill_completed`: drop every learning entry whose
`name` equals the skill, append a completed record, flush. -/
def markSkillCompleted (name : Chars) (score : Int) (now : Chars) (st : Store) : Store :=
  { st with skills :=
      { st.skills with
        learning := st.skills.learning.filter (fun s => s.name ≠ some name)
        completed := st.skills.completed ++
          [{ name := some name, score := some score, completedAt := some now }] } }

/-- The learning-ledger append inside `start_learning_session`
(learning_agent.py): append `{name, level}` unless some learning entry
already carries that name, then flush. -/
def learningSessionAppend (name level : Chars) (st : Store) : Store :=
  if st.skills.learning.any (fun s => s.name = some name) then st
  else
    { st with skills :=
        { st.skills with
          learning := st.skills.learning ++ [{ name := some name, level := some level }] } }

/-- Model of `UserMemory.update_skills`: replace `current`/`targets` when the
incoming value is truthy (non-`None`, nonempty), then flush. -/
def updateSkills (current targets : Option (List SkillDict)) (st : Store) : Store :=
  let st1 :=
    match current with
    | some l => if l ≠ [] then { st with skills := { st.skills with current := l } } else st
    | none => st
  match targets with
  | some l => if l ≠ [] then { st1 with skills := { st1.skills with targets := l } } else st1
  | none => st1

/-- Model of `UserMemory.add_mentor_note`: append, truncate to the last 20, flush. -/
def addMentorNote (note : Chars) (now : Chars) (st : Store) : Store :=
  { st with mentorNotes := takeLast 20 (st.mentorNotes ++ [{ date := now, note := note }]) }

/-- Model of `UserMemory.add_session_summary`: append, truncate to the last 10,
flush (`key_insights or []` for a missing insights argument). -/
def addSessionSummary (stype summary : Chars) (keyInsights : Option (List Chars))
    (now : Chars) (st : Store) : Store :=
  { st with sessionSummaries :=
      takeLast 10 (st.sessionSummaries ++
        [{ date := now, stype := stype, summary := summary
           keyInsights := keyInsights.getD [] }]) }

/-- Modelled from the spec: `UserMemory.save_assessment` is called at
app.py:635 but its definition is not among the provided sources; per
§4.3 it "appends an assessment-history record; does not by itself mutate
the skill ledger", recorded here in the `learning_history` list whose
declared shape is `[{skill, date, score, summary}]` extended with the
call's subtopic scores and gap entries (cf. `get_assessment_history`
reading `skill`/`overall_score`/`assessed_at`). -/
def saveAssessment (skill : Chars) (score : Int) (subtopicScores : List (Chars × Int))
    (gapEntries : List GapEntry) (now : Chars) (st : Store) : Store :=
  { st with learningHistory := st.learningHistory ++
      [{ skill := skill, overallScore := score, subtopicScores := subtopicScores
         gapEntries := gapEntries, assessedAt := now }] }

/-- The quiz-page session state (`st.session_state["quiz_*"]`, app.py). -/
structure QuizState where
  history : List Msg
  qCount : Nat
  lastQScore : Option Int
  lowConf : List Chars
  subtopics : List (Chars × Json)
  gaps : List Json
  phase : Chars
  score : Option Int

/-- The synthetic user turn built by the low-confidence button handler:
the stripped answer plus the flag marker, or the fixed flag-only
message when the answer is blank. -/
def lowConfFlagText (answer : Chars) : Chars :=
  if stripC answer ≠ [] then stripC answer ++ "\n\n[LOW_CONFIDENCE]".toList
  else "[LOW_CONFIDENCE] — não me sinto confiante neste tópico".toList

/-- Python `dict.update`. -/
def pyDictUpdate (d new : List (Chars × Json)) : List (Chars × Json) :=
  new.foldl (fun acc p => assocUpsert acc p.1 p.2) d

/-- The `low_conf_btn` branch of `_assess_quizzing` (app.py): run
`continue_assessment` on the flagged input, store its transcript, bump
the question counter, record the fixed per-turn score 25, remember the
flagged question label, and merge any returned subtopic scores / gaps /
completion flag. `response` is the gateway's raw reply. -/
def handleLowConf (answer skill response : Chars) (qs : QuizState) : QuizState :=
  let result := continueAssessment (lowConfFlagText answer) qs.history skill response
  { qs with
    history := result.history
    qCount := qs.qCount + 1
    lastQScore := some 25
    lowConf := qs.lowConf ++ [('Q' :: (toString qs.qCount).toList)]
    subtopics := if result.subtopicScores.isEmpty then qs.subtopics
      else pyDictUpdate qs.subtopics result.subtopicScores
    gaps := if result.gaps.isEmpty then qs.gaps else result.gaps
    phase := if result.complete then "results".toList else qs.phase }

/-- Decimal value of a digit string (what `int` computes on plain digit
input). -/
def decimalValue (ds : Chars) : Nat :=
  ds.foldl (fun a c => a * 10 + digitVal c) 0

/-- Does some entry of a skill bucket carry this name? -/
def inBucket (name : Chars) (b : List SkillDict) : Bool :=
  b.any (fun s => s.name = some name)

/-- One mutating step on the skill ledger, restricted as the amended C2
requires: the learning append fires only for names not already
completed. -/
inductive LedgerStep : Store → Store → Prop where
  | mark (name : Chars) (score : Int) (now : Chars) (st : Store) :
      LedgerStep st (markSkillCompleted name score now st)
  | learn (name level : Chars) (st : Store) :
      inBucket name st.skills.completed = false →
      LedgerStep st (learningSessionAppend name level st)
  | upd (current targets : Option (List SkillDict)) (st : Store) :
      LedgerStep st (updateSkills current targets st)

/-- States reachable from the default record through restricted steps. -/
inductive LedgerReach : Store → Prop where
  | init : LedgerReach emptyStore
  | step {st st' : Store} : LedgerReach st → LedgerStep st st' → LedgerReach st'

/-- One append call on the bounded note/summary lists. -/
inductive RetentionOp where
  | note (text now : Chars)
  | summary (stype summary : Chars) (keyInsights : Option (List Chars)) (now : Chars)

def applyRetentionOp (st : Store) (op : RetentionOp) : Store :=
  match op with
  | RetentionOp.note t n => addMentorNote t n st
  | RetentionOp.summary a b c n => addSessionSummary a b c n st

def applyRetentionOps (st : Store) (ops : List RetentionOp) : Store :=
  ops.foldl applyRetentionOp st

/-- The note records a sequence of ops appends, in order. -/
def opNotes (ops : List RetentionOp) : List NoteEntry :=
  ops.filterMap fun op =>
    match op with
    | RetentionOp.note t n => some { date := n, note := t }
    | _ => none

/-- The summary records a sequence of ops appends, in order. -/
def opSummaries (ops : List RetentionOp) : List SummaryEntry :=
  ops.filterMap fun op =>
    match op with
    | RetentionOp.summary a b c n =>
      some { date := n, stype := a, summary := b, keyInsights := c.getD [] }
    | _ => none

/-! ## Theorems -/

/-- C1: for every skill label, overall score, subtopic-score map and
gap-entry list, `save_assessment` succeeds (it is a total function of
the store state), appends exactly one assessment-history record, and
leaves all four skill buckets unchanged. -/
theorem saveAssessment_appends_one_record_preserving_buckets
    (skill : Chars) (score : Int) (subs : List (Chars × Int))
    (gapEntries : List GapEntry) (now : Chars) (st : Store) :
    (saveAssessment skill score subs gapEntries now st).learningHistory
        = st.learningHistory ++
          [{ skill := skill, overallScore := score, subtopicScores := subs
             gapEntries := gapEntries, assessedAt := now }]
    ∧ (saveAssessment skill score subs gapEntries now st).learningHistory.length
        = st.learningHistory.length + 1
    ∧ (saveAssessment skill score subs gapEntries now st).skills = st.skills := by
  refine ⟨rfl, ?_, rfl⟩
  simp [saveAssessment]

/-- C10: `mark_skill_completed` is not idempotent — two successive calls
append two separate completed records carrying the skill name, for every
starting store (in particular even when the name never was in
`learning`, and even when it is already in `completed`). -/
theorem markSkillCompleted_twice_appends_two_records
    (st : Store) (name : Chars) (score : Int) (t1 t2 : Chars) :
    (markSkillCompleted name score t2 (markSkillCompleted name score t1 st)).skills.completed
      = st.skills.completed
        ++ [{ name := some name, score := some score, completedAt := some t1 },
            { name := some name, score := some score, completedAt := some t2 }]
    ∧ ((markSkillCompleted name score t2
          (markSkillCompleted name score t1 st)).skills.completed.countP
        (fun s => s.name = some name))
      = st.skills.completed.countP (fun s => s.name = some name) + 2 := by
  constructor
  · simp [markSkillCompleted]
  · simp [markSkillCompleted, List.countP_append, List.countP_cons]

/-- C9: a marker payload that is a well-formed JSON object whose string
value contains the outer closing brace — `[SUBTOPIC_SCORES: {"a": "}"}]`
— is rejected by `_extract_bracketed_json` (depth counting does not skip
string literals), although the payload itself parses. -/
theorem extractBracketedJson_brace_in_string_counterexample :
    extractBracketedJson "[SUBTOPIC_SCORES: \x7b\"a\": \"\x7d\"\x7d]".toList
        "[SUBTOPIC_SCORES:".toList = none
    ∧ jsonParse "\x7b\"a\": \"\x7d\"\x7d".toList
        = some (Json.jobj [("a".toList, Json.jstr ['\x7d'])]) :=
  ⟨rfl, rfl⟩

/-- C3 counterexample: on text containing `<think>` with no `</think>`,
`_strip_think` does not return the full text unchanged — it discards the
unclosed block (here the whole input). -/
theorem stripThink_unclosed_drops_content :
    containsSub "<think>abc".toList "<think>".toList = true
    ∧ containsSub "<think>abc".toList "</think>".toList = false
    ∧ stripThink "<think>abc".toList = []
    ∧ stripThink "<think>abc".toList ≠ "<think>abc".toList := by
  refine ⟨by decide, by decide, by decide, by decide⟩

/-- C3 amended: on text containing `<think>` with no `</think>`,
`_strip_think` returns the text before the opening delimiter, stripped
of surrounding whitespace (discarding the unclosed block), rather than
the full text. -/
theorem stripThink_unclosed_amended (t : Chars)
    (hclose : containsSub t "</think>".toList = false)
    (hopen : containsSub t "<think>".toList = true) :
    stripThink t = stripC (beforeFirst "<think>".toList t) := by
  simp at hclose hopen
  simp [stripThink, hclose, hopen]

/-- Witness for the amended C3 theorem at `"real answer <think>garbage"`. -/
theorem stripThink_unclosed_amended_witness :
    stripThink "real answer <think>garbage".toList
      = stripC (beforeFirst "<think>".toList "real answer <think>garbage".toList) :=
  stripThink_unclosed_amended _ (by decide) (by decide)

theorem takeLast_eq_reverse (n : Nat) (l : List α) :
    takeLast n l = (l.reverse.take n).reverse := by
  rw [takeLast, List.take_reverse, List.reverse_reverse]

theorem takeLast_length_le (n : Nat) (l : List α) : (takeLast n l).length ≤ n := by
  rw [takeLast_eq_reverse]
  simp [List.length_take]

theorem takeLast_of_le {n : Nat} {l : List α} (h : l.length ≤ n) : takeLast n l = l := by
  rw [takeLast, Nat.sub_eq_zero_of_le h, List.drop_zero]

theorem takeLast_idem_append (n : Nat) (l l2 : List α) :
    takeLast n (takeLast n l ++ l2) = takeLast n (l ++ l2) := by
  simp only [takeLast_eq_reverse, List.reverse_append, List.reverse_reverse]
  congr 1
  rw [List.take_append_eq_append_take, List.take_append_eq_append_take, List.take_take,
    Nat.min_eq_left (Nat.sub_le n _)]

theorem retention_state_characterization (ops : List RetentionOp) :
    ∀ st : Store, st.mentorNotes.length ≤ 20 → st.sessionSummaries.length ≤ 10 →
    (applyRetentionOps st ops).mentorNotes = takeLast 20 (st.mentorNotes ++ opNotes ops)
    ∧ (applyRetentionOps st ops).sessionSummaries
        = takeLast 10 (st.sessionSummaries ++ opSummaries ops) := by
  induction ops with
  | nil =>
    intro st hn hs
    constructor
    · simpa [applyRetentionOps, opNotes] using (takeLast_of_le hn).symm
    · simpa [applyRetentionOps, opSummaries] using (takeLast_of_le hs).symm
  | cons op rest ih =>
    intro st hn hs
    cases op with
    | note t n =>
      have h1 := ih (addMentorNote t n st) (takeLast_length_le _ _) hs
      constructor
      · rw [show applyRetentionOps st (RetentionOp.note t n :: rest)
              = applyRetentionOps (addMentorNote t n st) rest from rfl, h1.1]
        show takeLast 20 ((addMentorNote t n st).mentorNotes ++ opNotes rest) = _
        rw [show (addMentorNote t n st).mentorNotes
              = takeLast 20 (st.mentorNotes ++ [{ date := n, note := t }]) from rfl,
          takeLast_idem_append, List.append_assoc]
        rfl
      · rw [show applyRetentionOps st (RetentionOp.note t n :: rest)
              = applyRetentionOps (addMentorNote t n st) rest from rfl, h1.2]
        rfl
    | summary a b c n =>
      have h1 := ih (addSessionSummary a b c n st) hn (takeLast_length_le _ _)
      constructor
      · rw [show applyRetentionOps st (RetentionOp.summary a b c n :: rest)
              = applyRetentionOps (addSessionSummary a b c n st) rest from rfl, h1.1]
        rfl
      · rw [show applyRetentionOps st (RetentionOp.summary a b c n :: rest)
              = applyRetentionOps (addSessionSummary a b c n st) rest from rfl, h1.2]
        show takeLast 10 ((addSessionSummary a b c n st).sessionSummaries ++ opSummaries rest) = _
        rw [show (addSessionSummary a b c n st).sessionSummaries
              = takeLast 10 (st.sessionSummaries ++
                  [{ date := n, stype := a, summary := b, keyInsights := c.getD [] }]) from rfl,
          takeLast_idem_append, List.append_assoc]
        rfl

/-- C6: starting from any store within bounds, after any sequence of
`add_mentor_note` / `add_session_summary` calls the mentor-note list
holds exactly the most recent ≤ 20 appended entries and the
session-summary list the most recent ≤ 10, and since every operation
flushes its truncated state, the flushed record satisfies the same
bounds. -/
theorem retention_bounds (ops : List RetentionOp) (st : Store)
    (hn : st.mentorNotes.length ≤ 20) (hs : st.sessionSummaries.length ≤ 10) :
    (applyRetentionOps st ops).mentorNotes = takeLast 20 (st.mentorNotes ++ opNotes ops)
    ∧ (applyRetentionOps st ops).sessionSummaries
        = takeLast 10 (st.sessionSummaries ++ opSummaries ops)
    ∧ (applyRetentionOps st ops).mentorNotes.length ≤ 20
    ∧ (applyRetentionOps st ops).sessionSummaries.length ≤ 10 := by
  obtain ⟨h1, h2⟩ := retention_state_characterization ops st hn hs
  exact ⟨h1, h2, h1 ▸ takeLast_length_le _ _, h2 ▸ takeLast_length_le _ _⟩

/-- Witness for C6 at a concrete two-operation run from the default
store. -/
theorem retention_bounds_witness :
    (applyRetentionOps emptyStore
        [RetentionOp.note "prefers examples".toList "2025-01-02".toList,
         RetentionOp.summary "mentor_chat".toList "intro chat".toList none
           "2025-01-03".toList]).mentorNotes
      = takeLast 20 (emptyStore.mentorNotes ++ opNotes
          [RetentionOp.note "prefers examples".toList "2025-01-02".toList,
           RetentionOp.summary "mentor_chat".toList "intro chat".toList none
             "2025-01-03".toList])
    ∧ (applyRetentionOps emptyStore
        [RetentionOp.note "prefers examples".toList "2025-01-02".toList,
         RetentionOp.summary "mentor_chat".toList "intro chat".toList none
           "2025-01-03".toList]).sessionSummaries
      = takeLast 10 (emptyStore.sessionSummaries ++ opSummaries
          [RetentionOp.note "prefers examples".toList "2025-01-02".toList,
           RetentionOp.summary "mentor_chat".toList "intro chat".toList none
             "2025-01-03".toList])
    ∧ (applyRetentionOps emptyStore
        [RetentionOp.note "prefers examples".toList "2025-01-02".toList,
         RetentionOp.summary "mentor_chat".toList "intro chat".toList none
           "2025-01-03".toList]).mentorNotes.length ≤ 20
    ∧ (applyRetentionOps emptyStore
        [RetentionOp.note "prefers examples".toList "2025-01-02".toList,
         RetentionOp.summary "mentor_chat".toList "intro chat".toList none
           "2025-01-03".toList]).sessionSummaries.length ≤ 10 :=
  retention_bounds _ emptyStore (by decide) (by decide)

theorem inBucket_iff (name : Chars) (b : List SkillDict) :
    inBucket name b = true ↔ ∃ s ∈ b, s.name = some name := by
  simp [inBucket, List.any_eq_true]

theorem updateSkills_preserves (c t : Option (List SkillDict)) (st : Store) :
    (updateSkills c t st).skills.learning = st.skills.learning
    ∧ (updateSkills c t st).skills.completed = st.skills.completed := by
  unfold updateSkills
  rcases c with _ | l <;> rcases t with _ | l2 <;>
    constructor <;> dsimp only <;> (try split) <;> (try split) <;> rfl

/-- C2 counterexample: completing a skill and then starting a learning
session on it puts the name in both `learning` and `completed` — a
reachable state via the exposed mutating operations. -/
theorem learning_completed_overlap_counterexample :
    inBucket "SQL".toList
        (learningSessionAppend "SQL".toList "beginner".toList
          (markSkillCompleted "SQL".toList 80 "2025-01-01".toList
            emptyStore)).skills.learning = true
    ∧ inBucket "SQL".toList
        (learningSessionAppend "SQL".toList "beginner".toList
          (markSkillCompleted "SQL".toList 80 "2025-01-01".toList
            emptyStore)).skills.completed = true := by
  constructor <;> rfl

/-- C2 amended: no skill name is simultaneously in `learning` and
`completed` in any state reachable through `mark_skill_completed`,
`update_skills`, and the learning append, provided the learning append
is only invoked for names not already in `completed` — the restriction
the counterexample forces, since `start_learning_session` checks only
the learning bucket for duplicates. -/
theorem no_learning_completed_overlap (st : Store) (h : LedgerReach st) (name : Chars) :
    ¬(inBucket name st.skills.learning = true
      ∧ inBucket name st.skills.completed = true) := by
  induction h with
  | init =>
    rintro ⟨h1, _⟩
    simp [inBucket, emptyStore] at h1
  | @step st0 st1 hr hstep ih =>
    cases hstep with
    | mark n s now =>
      rintro ⟨hl, hc⟩
      have hlearn : (markSkillCompleted n s now st0).skills.learning
          = st0.skills.learning.filter (fun s2 => s2.name ≠ some n) := rfl
      have hcomp : (markSkillCompleted n s now st0).skills.completed
          = st0.skills.completed ++ [⟨some n, none, some s, some now⟩] := rfl
      rw [hlearn, inBucket_iff] at hl
      rw [hcomp, inBucket_iff] at hc
      obtain ⟨e, he, hen⟩ := hl
      rw [List.mem_filter] at he
      obtain ⟨he0, hne⟩ := he
      have hne' : e.name ≠ some n := of_decide_eq_true hne
      obtain ⟨f, hf, hfn⟩ := hc
      rcases List.mem_append.mp hf with hf0 | hf1
      · exact ih ⟨(inBucket_iff _ _).mpr ⟨e, he0, hen⟩,
          (inBucket_iff _ _).mpr ⟨f, hf0, hfn⟩⟩
      · have hf2 : f = (⟨some n, none, some s, some now⟩ : SkillDict) := by
          simpa using hf1
        rw [hf2] at hfn
        exact hne' (hen.trans hfn.symm)
    | learn n lv _ hno =>
      rintro ⟨hl, hc⟩
      by_cases hpres : st0.skills.learning.any (fun s2 => s2.name = some n) = true
      · rw [learningSessionAppend, if_pos hpres] at hl hc
        exact ih ⟨hl, hc⟩
      · rw [learningSessionAppend, if_neg hpres] at hl hc
        have hc2 : inBucket name st0.skills.completed = true := hc
        rw [inBucket_iff] at hl
        obtain ⟨e, he, hen⟩ := hl
        have he' : e ∈ st0.skills.learning
            ++ [(⟨some n, some lv, none, none⟩ : SkillDict)] := he
        rcases List.mem_append.mp he' with he0 | he1
        · exact ih ⟨(inBucket_iff _ _).mpr ⟨e, he0, hen⟩, hc2⟩
        · have he2 : e = (⟨some n, some lv, none, none⟩ : SkillDict) := by
            simpa using he1
          rw [he2] at hen
          have hnm : n = name := by simpa using hen
          rw [← hnm] at hc2
          rw [hno] at hc2
          exact absurd hc2 (by decide)
    | upd c t =>
      rintro ⟨hl, hc⟩
      rw [(updateSkills_preserves c t st0).1] at hl
      rw [(updateSkills_preserves c t st0).2] at hc
      exact ih ⟨hl, hc⟩

/-- Witness for the amended C2 theorem at the default store. -/
theorem no_learning_completed_overlap_witness :
    ¬(inBucket "SQL".toList emptyStore.skills.learning = true
      ∧ inBucket "SQL".toList emptyStore.skills.completed = true) :=
  no_learning_completed_overlap emptyStore LedgerReach.init "SQL".toList

/-- C8 counterexample: on a low-confidence turn, when the gateway's
reply reports a different subtopic score (here 90), the subtopic-score
map records that value, not 25 — only the per-turn question score is
forced to 25 by the handler. -/
theorem lowConf_subtopic_score_counterexample :
    (handleLowConf "no idea".toList "SQL".toList
        "[QUESTION_SCORE: 25/100]\n[SUBTOPIC_SCORES: \x7b\"JOINs\": 90\x7d]\n[ASSESSMENT_COMPLETE]".toList
        ⟨[], 1, none, [], [], [], "quizzing".toList, none⟩).subtopics
      = [("JOINs".toList, Json.jnum 90)]
    ∧ (handleLowConf "no idea".toList "SQL".toList
        "[QUESTION_SCORE: 25/100]\n[SUBTOPIC_SCORES: \x7b\"JOINs\": 90\x7d]\n[ASSESSMENT_COMPLETE]".toList
        ⟨[], 1, none, [], [], [], "quizzing".toList, none⟩).lastQScore
      = some 25 :=
  ⟨rfl, rfl⟩

/-- C8 amended: flagging low confidence records exactly 25 as that
turn's question score (`quiz_last_q_score`), for every answer text,
every gateway reply, and every session state; the subtopic-score map
entry, by contrast, is whatever the gateway's `SUBTOPIC_SCORES` payload
reports (the fixed 25 for the subtopic is requested of the model by the
system prompt, not enforced in code). -/
theorem lowConf_turn_score_amended (answer skill response : Chars) (qs : QuizState) :
    (handleLowConf answer skill response qs).lastQScore = some 25 := rfl

theorem containsSub_of_afterFirst {m t rest : Chars}
    (h : afterFirst? m t = some rest) : containsSub t m = true := by
  unfold afterFirst? at h
  cases hf : findSub t m with
  | none => rw [hf] at h; exact absurd h (by simp)
  | some i => simp [containsSub, hf]

/-- C4: structured extraction characterized — when the marker is
present, the first meaningful character opens a brace/bracket, and the
depth scan finds the position where nesting first returns to zero,
`_extract_bracketed_json` returns exactly `json.loads` of the substring
up to that position (so a parse failure there yields `none`); when the
marker is absent, the first meaningful character does not open, or
nesting never closes, it returns `none`. It never raises: the embedded
function is total, every outcome being `some`/`none`. The final conjunct
runs the nested spec example (object containing an array containing a
string with embedded brackets). -/
theorem extractBracketedJson_depth_counting :
    (∀ t m, containsSub t m = false → extractBracketedJson t m = none)
    ∧ (∀ t m rest, afterFirst? m t = some rest → lstripC rest = [] →
        extractBracketedJson t m = none)
    ∧ (∀ t m rest c cs, afterFirst? m t = some rest → lstripC rest = c :: cs →
        (c = '{' || c = '[') = false → extractBracketedJson t m = none)
    ∧ (∀ t m rest c cs, afterFirst? m t = some rest → lstripC rest = c :: cs →
        (c = '{' || c = '[') = true →
        scanDepth (c :: cs) c (if c = '{' then '}' else ']') = none →
        extractBracketedJson t m = none)
    ∧ (∀ t m rest c cs endIdx, afterFirst? m t = some rest → lstripC rest = c :: cs →
        (c = '{' || c = '[') = true →
        scanDepth (c :: cs) c (if c = '{' then '}' else ']') = some endIdx →
        extractBracketedJson t m = jsonParse ((c :: cs).take endIdx))
    ∧ extractBracketedJson
        "Done.\n[SUBTOPIC_SCORES: \x7b\"A\": 1, \"arr\": [\"[x]\", 2]\x7d] tail".toList
        "[SUBTOPIC_SCORES:".toList
      = some (Json.jobj [("A".toList, Json.jnum 1),
          ("arr".toList, Json.jarr [Json.jstr "[x]".toList, Json.jnum 2])]) := by
  refine ⟨?_, ?_, ?_, ?_, ?_, rfl⟩
  · intro t m h
    simp [extractBracketedJson, h]
  · intro t m rest h hl
    simp [extractBracketedJson, containsSub_of_afterFirst h, h, hl]
  · intro t m rest c cs h hl hc
    simp [extractBracketedJson, containsSub_of_afterFirst h, h, hl, hc]
  · intro t m rest c cs h hl hc hscan
    simp [extractBracketedJson, containsSub_of_afterFirst h, h, hl, hc, hscan]
  · intro t m rest c cs endIdx h hl hc hscan
    simp [extractBracketedJson, containsSub_of_afterFirst h, h, hl, hc, hscan]

/-- Witness for C4 at `[GAPS: [1]]`: the scan stops at index 3 and the
extractor returns the parse of that exact substring. -/
theorem extractBracketedJson_depth_counting_witness :
    extractBracketedJson "[GAPS: [1]]".toList "[GAPS:".toList
      = jsonParse ("[1]]".toList.take 3) :=
  extractBracketedJson_depth_counting.2.2.2.2.1 "[GAPS: [1]]".toList "[GAPS:".toList
    " [1]]".toList '[' "1]]".toList 3 rfl rfl rfl rfl

theorem splitAllAux_succ (fuel : Nat) (hay pat : Chars) :
    splitAllAux (fuel + 1) hay pat =
      match findSub hay pat with
      | none => [hay]
      | some i => hay.take i :: splitAllAux fuel (hay.drop (i + pat.length)) pat := rfl

theorem splitAllAux_of_not_found {pat hay : Chars} (fuel : Nat)
    (h : findSub hay pat = none) : splitAllAux fuel hay pat = [hay] := by
  cases fuel with
  | zero => rfl
  | succ f => rw [splitAllAux_succ, h]

theorem findSub_head_mem {hay pt : Chars} {c : Char} {i : Nat}
    (h : findSub hay (c :: pt) = some i) : c ∈ hay := by
  induction hay generalizing i with
  | nil => simp [findSub] at h
  | cons a t ih =>
    unfold findSub at h
    by_cases hpre : (c :: pt).isPrefixOf (a :: t) = true
    · rw [List.isPrefixOf_iff_prefix] at hpre
      obtain ⟨r, hr⟩ := hpre
      rw [List.cons_append] at hr
      have hca : c = a := (List.cons.injEq _ _ _ _ ▸ hr).1
      rw [hca]
      exact List.mem_cons_self a t
    · rw [if_neg hpre] at h
      rcases Option.map_eq_some'.mp h with ⟨j, hj, _⟩
      exact List.mem_cons_of_mem a (ih hj)

theorem findSub_eq_none_of_not_mem {hay pt : Chars} {c : Char} (h : c ∉ hay) :
    findSub hay (c :: pt) = none := by
  cases hf : findSub hay (c :: pt) with
  | none => rfl
  | some i => exact absurd (findSub_head_mem hf) h

theorem findSub_self_append (m r : Chars) (hm : m ≠ []) :
    findSub (m ++ r) m = some 0 := by
  cases m with
  | nil => exact absurd rfl hm
  | cons a t =>
    show findSub (a :: (t ++ r)) (a :: t) = some 0
    have hpre : (a :: t).isPrefixOf (a :: (t ++ r)) = true := by
      rw [List.isPrefixOf_iff_prefix, show a :: (t ++ r) = (a :: t) ++ r from rfl]
      exact List.prefix_append _ _
    unfold findSub
    rw [hpre]
    rfl

theorem findSub_single_append {l : Chars} {c : Char} (r : Chars) (h : c ∉ l) :
    findSub (l ++ c :: r) [c] = some l.length := by
  induction l with
  | nil =>
    show findSub (c :: r) [c] = some 0
    have hpre : [c].isPrefixOf (c :: r) = true := by
      rw [List.isPrefixOf_iff_prefix, show c :: r = [c] ++ r from rfl]
      exact List.prefix_append _ _
    unfold findSub
    rw [hpre]
    rfl
  | cons a t ih =>
    have ha : ¬(c = a) := fun e => h (by rw [e]; exact List.mem_cons_self a t)
    show findSub (a :: (t ++ c :: r)) [c] = some (t.length + 1)
    have hpre : ([c].isPrefixOf (a :: (t ++ c :: r))) = false := by
      simp [List.isPrefixOf]
      exact ha
    unfold findSub
    rw [hpre]
    simp only [Bool.false_eq_true, if_false]
    rw [ih (fun hm => h (List.mem_cons_of_mem a hm))]
    rfl

theorem splitAll_head (pat s : Chars) :
    (splitAll pat s).headD s = beforeFirst pat s := by
  unfold splitAll beforeFirst
  rw [splitAllAux_succ]
  cases hf : findSub s pat with
  | none => rfl
  | some i => rfl

theorem beforeFirst_single_append {l : Chars} {c : Char} (r : Chars) (h : c ∉ l) :
    beforeFirst [c] (l ++ c :: r) = l := by
  unfold beforeFirst
  rw [findSub_single_append r h]
  exact List.take_left l (c :: r)

theorem splitAll_append_segment {m rest : Chars} (hm : m ≠ [])
    (h : findSub rest m = none) :
    (splitAll m (m ++ rest)).get? 1 = some rest := by
  unfold splitAll
  rw [splitAllAux_succ, findSub_self_append m rest hm]
  simp only [List.take_zero, Nat.zero_add, List.drop_left]
  rw [splitAllAux_of_not_found _ h]
  rfl

theorem lstripC_of_not_space {x : Chars} (h : ∀ c ∈ x, isSpaceChar c = false) :
    lstripC x = x := by
  cases x with
  | nil => rfl
  | cons a t =>
    unfold lstripC
    rw [List.dropWhile_cons, h a (List.mem_cons_self a t)]
    rfl

theorem rstripC_of_not_space {x : Chars} (h : ∀ c ∈ x, isSpaceChar c = false) :
    rstripC x = x := by
  unfold rstripC
  have hr : x.reverse.dropWhile isSpaceChar = x.reverse := by
    have := lstripC_of_not_space (x := x.reverse)
      (fun c hc => h c (List.mem_reverse.mp hc))
    simpa [lstripC] using this
  rw [hr, List.reverse_reverse]

theorem stripC_of_not_space {x : Chars} (h : ∀ c ∈ x, isSpaceChar c = false) :
    stripC x = x := by
  unfold stripC
  rw [lstripC_of_not_space h, rstripC_of_not_space h]

theorem stripC_space_cons {x : Chars} (h : ∀ c ∈ x, isSpaceChar c = false) :
    stripC (' ' :: x) = x := by
  unfold stripC
  have h1 : lstripC (' ' :: x) = lstripC x := by
    unfold lstripC
    rw [List.dropWhile_cons, show isSpaceChar ' ' = true from rfl]
    rfl
  rw [h1, lstripC_of_not_space h, rstripC_of_not_space h]

theorem not_space_of_digit {c : Char} (h : c.isDigit = true) : isSpaceChar c = false := by
  by_contra hcon
  have hsp : isSpaceChar c = true := by
    cases hv : isSpaceChar c
    · exact absurd hv hcon
    · rfl
  unfold isSpaceChar at hsp
  simp only [Bool.or_eq_true, decide_eq_true_eq] at hsp
  rcases hsp with (((((h1 | h1) | h1) | h1) | h1) | h1) <;> subst h1 <;> exact absurd h (by decide)

theorem digitsAux_all_digits (t : Chars) : ∀ acc : Nat, (∀ c ∈ t, c.isDigit = true) →
    digitsAux t acc = some (t.foldl (fun a c => a * 10 + digitVal c) acc) := by
  induction t with
  | nil => intro acc _; rfl
  | cons c t2 ih =>
    intro acc h
    have hc : c.isDigit = true := h c (List.mem_cons_self c t2)
    unfold digitsAux
    rw [hc]
    simp only [if_true]
    rw [ih _ (fun d hd => h d (List.mem_cons_of_mem _ hd))]
    rfl

theorem parseUDigits_all_digits {ds : Chars} (hne : ds ≠ [])
    (h : ∀ c ∈ ds, c.isDigit = true) :
    parseUDigits ds = some (decimalValue ds) := by
  cases ds with
  | nil => exact absurd rfl hne
  | cons c t =>
    have hc : c.isDigit = true := h c (List.mem_cons_self c t)
    have hred : parseUDigits (c :: t)
        = if c.isDigit then digitsAux t (digitVal c) else none := rfl
    rw [hred, if_pos hc,
      digitsAux_all_digits t _ (fun d hd => h d (List.mem_cons_of_mem _ hd))]
    simp [decimalValue]

theorem pyInt_digits {ds : Chars} (hne : ds ≠ [])
    (h : ∀ c ∈ ds, c.isDigit = true) :
    pyInt? ds = some (Int.ofNat (decimalValue ds)) := by
  have hs : stripC ds = ds := stripC_of_not_space (fun c hc => not_space_of_digit (h c hc))
  unfold pyInt?
  rw [hs]
  cases ds with
  | nil => exact absurd rfl hne
  | cons c t =>
    have hc : c.isDigit = true := h c (List.mem_cons_self c t)
    have hplus : c ≠ '+' := fun e => absurd (e ▸ hc) (by decide)
    have hminus : c ≠ '-' := fun e => absurd (e ▸ hc) (by decide)
    split
    next rest heq =>
      exact absurd ((List.cons.injEq _ _ _ _ ▸ heq).1) hplus
    next rest heq =>
      exact absurd ((List.cons.injEq _ _ _ _ ▸ heq).1) hminus
    next =>
      rw [parseUDigits_all_digits hne h]
      rfl

theorem extractScalar_digit_payload (mt ds : Chars)
    (hne : ds ≠ []) (hdig : ∀ c ∈ ds, c.isDigit = true) :
    extractScalar (('[' :: mt) ++ (' ' :: ds) ++ "/100]".toList) ('[' :: mt)
      = some (Int.ofNat (decimalValue ds)) := by
  have hnotin : '[' ∉ (' ' :: ds) ++ "/100]".toList := by
    intro hmem
    rcases List.mem_append.mp hmem with h2 | h4
    · rcases List.mem_cons.mp h2 with h1 | h3
      · exact absurd h1 (by decide)
      · exact absurd (hdig _ h3) (by decide)
    · exact absurd h4 (by decide)
  have hfindrest : findSub ((' ' :: ds) ++ "/100]".toList) ('[' :: mt) = none :=
    findSub_eq_none_of_not_mem hnotin
  have happ : ('[' :: mt) ++ (' ' :: ds) ++ "/100]".toList
      = ('[' :: mt) ++ ((' ' :: ds) ++ "/100]".toList) := by
    rw [List.append_assoc]
  have hfind0 : findSub (('[' :: mt) ++ (' ' :: ds) ++ "/100]".toList) ('[' :: mt)
      = some 0 := by
    rw [happ]
    exact findSub_self_append _ _ (by simp)
  have hcontains : containsSub (('[' :: mt) ++ (' ' :: ds) ++ "/100]".toList)
      ('[' :: mt) = true := by
    unfold containsSub
    rw [hfind0]
    rfl
  have hseg : (splitAll ('[' :: mt)
        (('[' :: mt) ++ (' ' :: ds) ++ "/100]".toList)).get? 1
      = some ((' ' :: ds) ++ "/100]".toList) := by
    rw [happ]
    exact splitAll_append_segment (by simp) hfindrest
  have hnobr : ']' ∉ (' ' :: ds) ++ "/100".toList := by
    intro hmem
    rcases List.mem_append.mp hmem with h2 | h4
    · rcases List.mem_cons.mp h2 with h1 | h3
      · exact absurd h1 (by decide)
      · exact absurd (hdig _ h3) (by decide)
    · exact absurd h4 (by decide)
  have hbr : (splitAll [']'] ((' ' :: ds) ++ "/100]".toList)).headD
        ((' ' :: ds) ++ "/100]".toList)
      = (' ' :: ds) ++ "/100".toList := by
    rw [splitAll_head]
    have hrw : (' ' :: ds) ++ "/100]".toList
        = ((' ' :: ds) ++ "/100".toList) ++ (']' :: []) := by
      rw [List.append_assoc]
      rfl
    rw [hrw]
    exact beforeFirst_single_append _ hnobr
  have hnospace : ∀ c ∈ ds ++ "/100".toList, isSpaceChar c = false := by
    intro c hc
    rcases List.mem_append.mp hc with h1 | h2
    · exact not_space_of_digit (hdig c h1)
    · exact (by decide : ∀ c ∈ "/100".toList, isSpaceChar c = false) c h2
  have hstrip : stripC ((' ' :: ds) ++ "/100".toList) = ds ++ "/100".toList := by
    rw [show (' ' :: ds) ++ "/100".toList = ' ' :: (ds ++ "/100".toList) from rfl]
    exact stripC_space_cons hnospace
  have hnosl : '/' ∉ ds := fun hm => absurd (hdig _ hm) (by decide)
  have hsl : (splitAll ['/'] (ds ++ "/100".toList)).headD (ds ++ "/100".toList) = ds := by
    rw [splitAll_head]
    rw [show ds ++ "/100".toList = ds ++ '/' :: "100".toList from rfl]
    exact beforeFirst_single_append _ hnosl
  unfold extractScalar
  rw [hcontains]
  simp only [if_true]
  rw [hseg]
  simp only
  rw [hbr, hstrip, hsl]
  exact pyInt_digits hne hdig

/-- C7: the scalar marker extractor of `continue_assessment` — for every
all-digit payload the exact integer before the `/` is returned (shown
for both `[QUESTION_SCORE: …]` and `[ASSESSMENT_SCORE: …]`), for every
text not containing the marker it returns `none`, and a payload that
fails integer parsing returns `none`; the embedded function is total
(`ValueError`/`IndexError` are collapsed into the `none` branch, never
propagated). -/
theorem extractScalar_marker_protocol :
    (∀ t m, containsSub t m = false → extractScalar t m = none)
    ∧ (∀ ds : Chars, ds ≠ [] → (∀ c ∈ ds, c.isDigit = true) →
        extractScalar ("[QUESTION_SCORE:".toList ++ (' ' :: ds) ++ "/100]".toList)
          "[QUESTION_SCORE:".toList = some (Int.ofNat (decimalValue ds)))
    ∧ (∀ ds : Chars, ds ≠ [] → (∀ c ∈ ds, c.isDigit = true) →
        extractScalar ("[ASSESSMENT_SCORE:".toList ++ (' ' :: ds) ++ "/100]".toList)
          "[ASSESSMENT_SCORE:".toList = some (Int.ofNat (decimalValue ds)))
    ∧ extractScalar "Solid answer.\n[QUESTION_SCORE: 85/100]\nNext question.".toList
        "[QUESTION_SCORE:".toList = some 85
    ∧ extractScalar "[ASSESSMENT_SCORE: 55/100]".toList "[ASSESSMENT_SCORE:".toList
        = some 55
    ∧ extractScalar "[QUESTION_SCORE: high/100]".toList "[QUESTION_SCORE:".toList
        = none := by
  refine ⟨?_, ?_, ?_, rfl, rfl, rfl⟩
  · intro t m h
    simp [extractScalar, h]
  · intro ds h1 h2
    exact extractScalar_digit_payload "QUESTION_SCORE:".toList ds h1 h2
  · intro ds h1 h2
    exact extractScalar_digit_payload "ASSESSMENT_SCORE:".toList ds h1 h2

/-- Witness for C7 at the digit payload `85`. -/
theorem extractScalar_marker_protocol_witness :
    extractScalar ("[QUESTION_SCORE:".toList ++ (' ' :: ['8', '5']) ++ "/100]".toList)
        "[QUESTION_SCORE:".toList = some (Int.ofNat (decimalValue ['8', '5'])) :=
  extractScalar_marker_protocol.2.1 ['8', '5'] (by decide) (by decide)

theorem mkGapEntries_length (skill : Chars) (reasons : List (Chars × Chars))
    (overall : Int) : ∀ (p : Nat) (l : List (Chars × Int)),
    (mkGapEntries skill reasons overall p l).length = l.length := by
  intro p l
  induction l generalizing p with
  | nil => rfl
  | cons x rest ih =>
    cases x with
    | mk sub v => simp [mkGapEntries, ih]

theorem mkGapEntries_priorities (skill : Chars) (reasons : List (Chars × Chars))
    (overall : Int) : ∀ (p : Nat) (l : List (Chars × Int)),
    (mkGapEntries skill reasons overall p l).map (fun e => e.priority)
      = List.range' p l.length := by
  intro p l
  induction l generalizing p with
  | nil => rfl
  | cons x rest ih =>
    cases x with
    | mk sub v => simp [mkGapEntries, List.range'_succ, ih]

theorem mkGapEntries_pairs (skill : Chars) (reasons : List (Chars × Chars))
    (overall : Int) : ∀ (p : Nat) (l : List (Chars × Int)),
    (mkGapEntries skill reasons overall p l).map (fun e => (e.skill, e.assessedScore))
      = l.map (fun q => (skill ++ " — ".toList ++ q.1, q.2)) := by
  intro p l
  induction l generalizing p with
  | nil => rfl
  | cons x rest ih =>
    cases x with
    | mk sub v => simp [mkGapEntries, ih]

theorem mkGapEntries_scores (skill : Chars) (reasons : List (Chars × Chars))
    (overall : Int) : ∀ (p : Nat) (l : List (Chars × Int)),
    (mkGapEntries skill reasons overall p l).map (fun e => e.assessedScore)
      = l.map (fun q => q.2) := by
  intro p l
  induction l generalizing p with
  | nil => rfl
  | cons x rest ih =>
    cases x with
    | mk sub v => simp [mkGapEntries, ih]

theorem sortedByScore_perm (l : List (Chars × Int)) : List.Perm (sortedByScore l) l :=
  List.perm_insertionSort _ l

theorem sortedByScore_sorted (l : List (Chars × Int)) :
    List.Sorted (fun a b : Chars × Int => a.2 ≤ b.2) (sortedByScore l) := by
  haveI : IsTotal (Chars × Int) (fun a b => a.2 ≤ b.2) := ⟨fun a b => Int.le_total a.2 b.2⟩
  haveI : IsTrans (Chars × Int) (fun a b => a.2 ≤ b.2) := ⟨fun _ _ _ h1 h2 => le_trans h1 h2⟩
  exact List.sorted_insertionSort _ l

theorem combined_inj {skill a b : Chars}
    (h : skill ++ " — ".toList ++ a = skill ++ " — ".toList ++ b) : a = b :=
  List.append_cancel_left h

theorem countP_key_filter {subs : List (Chars × Int)} (h : (subs.map Prod.fst).Nodup)
    {sub : Chars} {v : Int} (hmem : (sub, v) ∈ subs) :
    (subs.filter (fun p => p.2 < 70)).countP (fun p => p.1 = sub)
      = if v < 70 then 1 else 0 := by
  induction subs with
  | nil => cases hmem
  | cons x rest ih =>
    rw [List.map_cons, List.nodup_cons] at h
    obtain ⟨hx, hrest⟩ := h
    rcases List.mem_cons.mp hmem with heq | hm2
    · have hzero : (rest.filter (fun p => p.2 < 70)).countP (fun p => p.1 = sub) = 0 := by
        rw [List.countP_eq_zero]
        intro q hq
        have hq2 : q ∈ rest := List.mem_of_mem_filter hq
        simp only [decide_eq_true_eq]
        intro hq1
        rw [← heq] at hx
        apply hx
        have hmm : q.1 ∈ rest.map Prod.fst := List.mem_map_of_mem Prod.fst hq2
        rwa [hq1] at hmm
      rw [← heq]
      by_cases hv : v < 70
      · simp [List.filter_cons, hv, List.countP_cons, hzero]
      · simp [List.filter_cons, hv, List.countP_cons, hzero]
    · have hxs : ¬(x.1 = sub) := fun e => hx (e ▸ List.mem_map_of_mem Prod.fst hm2)
      rw [List.filter_cons]
      by_cases hx70 : x.2 < 70
      · simp [hx70, List.countP_cons, hxs, ih hrest hm2]
      · simp [hx70, ih hrest hm2]

/-- C5: `build_gap_entries` emits priorities `1, 2, …` down its output,
the output is ordered by ascending subtopic score, its `(skill-label,
score)` pairs are exactly (a permutation of) the subtopics scoring
strictly below 70, and — keys being distinct as in a Python dict — each
subtopic below 70 yields exactly one entry while each subtopic at 70 or
above yields none. -/
theorem buildGapEntries_threshold_and_priorities
    (skill : Chars) (subs : List (Chars × Int)) (gaps : List Json) (overall : Int)
    (hnodup : (subs.map Prod.fst).Nodup) :
    ((buildGapEntries skill subs gaps overall).map (fun e => e.priority)
        = List.range' 1 (buildGapEntries skill subs gaps overall).length)
    ∧ List.Sorted (· ≤ ·)
        ((buildGapEntries skill subs gaps overall).map (fun e => e.assessedScore))
    ∧ List.Perm
        ((buildGapEntries skill subs gaps overall).map
          (fun e => (e.skill, e.assessedScore)))
        ((subs.filter (fun p => p.2 < 70)).map
          (fun q => (skill ++ " — ".toList ++ q.1, q.2)))
    ∧ (∀ sub v, (sub, v) ∈ subs →
        (buildGapEntries skill subs gaps overall).countP
            (fun e => e.skill = skill ++ " — ".toList ++ sub)
          = if v < 70 then 1 else 0) := by
  refine ⟨?_, ?_, ?_, ?_⟩
  · rw [buildGapEntries, mkGapEntries_priorities, mkGapEntries_length,
      (sortedByScore_perm _).length_eq]
  · rw [buildGapEntries, mkGapEntries_scores]
    exact (sortedByScore_sorted _).map _ (fun a b hab => hab)
  · rw [buildGapEntries, mkGapEntries_pairs]
    exact (sortedByScore_perm _).map _
  · intro sub v hmem
    rw [buildGapEntries]
    have h1 : (mkGapEntries skill
          (gapReasonsOf (subs.map (fun p => p.1)) gaps) overall 1
          (sortedByScore (subs.filter (fun p => p.2 < 70)))).countP
        (fun e => e.skill = skill ++ " — ".toList ++ sub)
      = ((mkGapEntries skill (gapReasonsOf (subs.map (fun p => p.1)) gaps) overall 1
          (sortedByScore (subs.filter (fun p => p.2 < 70)))).map
            (fun e => (e.skill, e.assessedScore))).countP
        (fun x => x.1 = skill ++ " — ".toList ++ sub) := by
      rw [List.countP_map]
      rfl
    rw [h1, mkGapEntries_pairs, List.countP_map,
      (sortedByScore_perm _).countP_eq]
    have h2 : (subs.filter (fun p => p.2 < 70)).countP
        ((fun x : Chars × Int => decide (x.1 = skill ++ " — ".toList ++ sub))
          ∘ (fun q : Chars × Int => (skill ++ " — ".toList ++ q.1, q.2)))
      = (subs.filter (fun p => p.2 < 70)).countP (fun p => p.1 = sub) := by
      apply List.countP_congr
      intro q _
      simp only [Function.comp_apply, decide_eq_true_eq]
      constructor
      · exact fun hc => combined_inj hc
      · intro hc
        rw [hc]
    rw [h2]
    exact countP_key_filter hnodup hmem

/-- Witness for C5 at a three-subtopic map with scores 40, 70, 85. -/
theorem buildGapEntries_threshold_witness :
    ((buildGapEntries "SQL".toList
        [("JOINs".toList, 85), ("CTEs".toList, 40), ("Indexes".toList, 70)]
        [Json.jstr "CTEs: needs work".toList] 55).map (fun e => e.priority)
      = List.range' 1 (buildGapEntries "SQL".toList
          [("JOINs".toList, 85), ("CTEs".toList, 40), ("Indexes".toList, 70)]
          [Json.jstr "CTEs: needs work".toList] 55).length)
    ∧ List.Sorted (· ≤ ·) ((buildGapEntries "SQL".toList
        [("JOINs".toList, 85), ("CTEs".toList, 40), ("Indexes".toList, 70)]
        [Json.jstr "CTEs: needs work".toList] 55).map (fun e => e.assessedScore))
    ∧ List.Perm ((buildGapEntries "SQL".toList
        [("JOINs".toList, 85), ("CTEs".toList, 40), ("Indexes".toList, 70)]
        [Json.jstr "CTEs: needs work".toList] 55).map
          (fun e => (e.skill, e.assessedScore)))
        (([("JOINs".toList, (85 : Int)), ("CTEs".toList, 40),
            ("Indexes".toList, 70)].filter (fun p => p.2 < 70)).map
          (fun q => ("SQL".toList ++ " — ".toList ++ q.1, q.2)))
    ∧ (∀ sub v, (sub, v) ∈ [("JOINs".toList, (85 : Int)), ("CTEs".toList, 40),
          ("Indexes".toList, 70)] →
        (buildGapEntries "SQL".toList
            [("JOINs".toList, 85), ("CTEs".toList, 40), ("Indexes".toList, 70)]
            [Json.jstr "CTEs: needs work".toList] 55).countP
            (fun e => e.skill = "SQL".toList ++ " — ".toList ++ sub)
          = if v < 70 then 1 else 0) :=
  buildGapEntries_threshold_and_priorities "SQL".toList
    [("JOINs".toList, 85), ("CTEs".toList, 40), ("Indexes".toList, 70)]
    [Json.jstr "CTEs: needs work".toList] 55 (by decide)

end MagicMentor
